import Mathlib

/-!
Shallow embedding of the dice-resolution engine of `dice-roller-mcp`
(`src/dice/roll.ts`, with the input schema of `src/dice/validation.ts`),
together with theorems checking the natural-language specification's claims
against it.

Randomness is injected: the TypeScript code draws every random value through
`rollSingleDie`, which calls `Math.random`.  Here a draw source
`g : Nat → Nat` supplies the value returned by the k-th call of
`rollSingleDie` made during one pipeline invocation (calls are numbered from
0 in the order the code performs them).  Every stage that draws therefore
threads the index of the next call.
-/

set_option maxRecDepth 4000

namespace DiceRoller

/-- `MAX_EXPLOSION_DEPTH` from `roll.ts`: maximum number of extra explosion
draws for one die. -/
def MAX_EXPLOSION_DEPTH : Nat := 10

/-- `RollDiceParams` (`types.ts` plus the extra optional fields accepted by
the zod schema in `validation.ts`: `drop_highest`, `drop_lowest`, `label`).
Optional fields are `Option`; absent = `none`. -/
structure RollDiceParams where
  dice_count : Nat
  dice_sides : Nat
  modifier : Option Int
  keep_highest : Option Nat
  keep_lowest : Option Nat
  drop_highest : Option Nat
  drop_lowest : Option Nat
  reroll : List Nat
  exploding : Bool
  target_number : Option Nat
  min_value : Option Nat
  label : Option String
deriving DecidableEq, Repr

/-- `DieResult` (`types.ts`): one die's state while it moves through the
pipeline, and its final snapshot in the result. -/
structure DieResult where
  die : Nat
  sides : Nat
  rolls : List Nat
  value : Nat
  kept : Bool
  special : Option String
deriving DecidableEq, Repr

/-- `RollResult` (`types.ts`).  The TypeScript interface has no `label`
field and `rollDice` never writes one; the embedding records that absence
explicitly as an `Option String` that `rollDice` always leaves `none`. -/
structure RollResult where
  total : Int
  successes : Option Nat
  total_dice : Option Nat
  dice : List DieResult
  operation : String
  description : String
  label : Option String
deriving DecidableEq, Repr

/-- The initial-roll stage of `rollDice` (`Array.from` at roll.ts:54-63):
die `i+1` takes draw `g i` as its single roll; `value` 0, `kept` true,
`special` null. -/
def initialDice (count : Nat) (sides : Nat) (g : Nat → Nat) : List DieResult :=
  (List.range count).map fun i =>
    { die := i + 1, sides := sides, rolls := [g i], value := 0, kept := true, special := none }

/-- `rerollDice` (roll.ts:206-224), with the draw counter threaded: a die
whose first roll is in the reroll list gets exactly one extra draw appended
and `special` set to "rerolled".  `rolls[0]` is read with `headD 0`
(the pipeline never hands this function a die with empty `rolls`). -/
def rerollDice (dice : List DieResult) (rerollValues : List Nat)
    (g : Nat → Nat) (k : Nat) : List DieResult × Nat :=
  match dice with
  | [] => ([], k)
  | d :: rest =>
    if rerollValues.contains (d.rolls.headD 0) then
      let d2 := { d with rolls := d.rolls ++ [g k], special := some "rerolled" }
      let r := rerollDice rest rerollValues g (k + 1)
      (d2 :: r.1, r.2)
    else
      let r := rerollDice rest rerollValues g k
      (d :: r.1, r.2)

/-- The while-loop of `explodeDice` (roll.ts:241-247): while the last roll
equals `sides` and fewer than `fuel` extra draws were taken, append one more
draw.  Returns the grown roll list and the next draw index. -/
def explodeRolls (sides : Nat) (g : Nat → Nat) (k : Nat) (rolls : List Nat) :
    Nat → List Nat × Nat
  | 0 => (rolls, k)
  | fuel + 1 =>
    if rolls.getLastD 0 = sides then
      explodeRolls sides g (k + 1) (rolls ++ [g k]) fuel
    else (rolls, k)

/-- One die of `explodeDice` (roll.ts:232-254).  `special` becomes
"exploded" exactly when at least one explosion draw happened, and is reset
to null otherwise — the source initialises `special` to `null` and only the
loop body sets it, so a "rerolled" tag is erased for a die that does not
explode. -/
def explodeDie (d : DieResult) (g : Nat → Nat) (k : Nat) : DieResult × Nat :=
  let r := explodeRolls d.sides g k d.rolls MAX_EXPLOSION_DEPTH
  ({ d with rolls := r.1, special := if d.rolls.length < r.1.length then some "exploded" else none }, r.2)

/-- `explodeDice` (roll.ts:231-255) with the draw counter threaded through
the dice in array order. -/
def explodeDice (dice : List DieResult) (g : Nat → Nat) (k : Nat) :
    List DieResult × Nat :=
  match dice with
  | [] => ([], k)
  | d :: rest =>
    let r := explodeDie d g k
    let rr := explodeDice rest g r.2
    (r.1 :: rr.1, rr.2)

/-- `applyMinValue` (roll.ts:263-282): a die whose last roll is below the
minimum gets `value` forced to the minimum and `special` set to
"min-<minValue>". -/
def applyMinValue (dice : List DieResult) (minValue : Nat) : List DieResult :=
  dice.map fun d =>
    if d.rolls.getLastD 0 < minValue then
      { d with value := minValue, special := some ("min-" ++ toString minValue) }
    else d

/-- `Math.max(...die.rolls)`, the per-die ranking magnitude used by the
keep stages and by `countSuccesses` (rolls are nonempty whenever the
pipeline evaluates this). -/
def magnitude (d : DieResult) : Nat := d.rolls.foldr max 0

/-- The `findIndex` predicate of the keep stages (roll.ts:158-163): the
candidate `d` matches the outer die `x` when die numbers and sides agree and
`d.rolls.every((r, i) => r === x.rolls[i])`, i.e. `d.rolls` is a pointwise
prefix of `x.rolls`. -/
def keepMatches (x d : DieResult) : Bool :=
  d.die == x.die && d.sides == x.sides && d.rolls.isPrefixOf x.rolls

/-- `keepHighestDice` (roll.ts:150-170): stable-sort the dice by magnitude
descending (JavaScript `Array.prototype.sort` is stable; comparator
`(a, b) => max(b.rolls) - max(a.rolls)`), then keep each die whose first
matching position in the sorted array is below `count`.  The source's
`findIndex` cannot miss (every die matches itself), so the not-found
branches (-1 there, list length here) are unreachable and the embeddings
agree. -/
def keepHighestDice (dice : List DieResult) (count : Nat) : List DieResult :=
  let sortedDice := dice.mergeSort fun a b => magnitude b ≤ magnitude a
  dice.map fun die =>
    let sortedIndex := sortedDice.findIdx (keepMatches die)
    { die with kept := sortedIndex < count }

/-- `keepLowestDice` (roll.ts:178-198): as `keepHighestDice` but sorted by
magnitude ascending. -/
def keepLowestDice (dice : List DieResult) (count : Nat) : List DieResult :=
  let sortedDice := dice.mergeSort fun a b => magnitude a ≤ magnitude b
  dice.map fun die =>
    let sortedIndex := sortedDice.findIdx (keepMatches die)
    { die with kept := sortedIndex < count }

/-- The per-die finalisation map of `rollDice` (roll.ts:88-112). -/
def finalizeDie (d : DieResult) : DieResult :=
  if 0 < d.value then d
  else if d.special == some "exploded" then { d with value := d.rolls.sum }
  else if d.special == some "rerolled" then { d with value := d.rolls.getLastD 0 }
  else { d with value := d.rolls.headD 0 }

/-- `countSuccesses` (roll.ts:290-299): count the dice, kept or not, whose
checked value (the set `value` when positive, otherwise the maximum roll)
reaches the target. -/
def countSuccesses (dice : List DieResult) (targetNumber : Nat) : Nat :=
  (dice.filter fun die =>
    targetNumber ≤ (if 0 < die.value then die.value else magnitude die)).length

/-- `generateOperation` (roll.ts:306-350).  Note the source reads only
`keep_highest` / `keep_lowest`: the `drop_highest` / `drop_lowest` fields
accepted by the validator are never rendered. -/
def generateOperation (p : RollDiceParams) : String :=
  let s0 := toString p.dice_count ++ "d" ++ toString p.dice_sides
  let s1 :=
    match p.keep_highest with
    | some n => s0 ++ "kh" ++ toString n
    | none =>
      match p.keep_lowest with
      | some n => s0 ++ "kl" ++ toString n
      | none => s0
  let s2 := if p.reroll.length > 0 then
      s1 ++ "r" ++ String.join (p.reroll.map toString)
    else s1
  let s3 := if p.exploding then s2 ++ "!" else s2
  let s4 :=
    match p.min_value with
    | some m => s3 ++ "min" ++ toString m
    | none => s3
  let s5 :=
    match p.target_number with
    | some t => s4 ++ ">=" ++ toString t
    | none => s4
  match p.modifier with
  | some m =>
    if m ≠ 0 then s5 ++ (if 0 < m then "+" else "") ++ toString m else s5
  | none => s5

/-- `generateDescription` (roll.ts:357-406), same field coverage as
`generateOperation`. -/
def generateDescription (p : RollDiceParams) : String :=
  let s0 := "Rolled " ++ toString p.dice_count ++ "d" ++ toString p.dice_sides
  let s1 :=
    match p.keep_highest with
    | some n => s0 ++ ", keeping highest " ++ toString n
    | none =>
      match p.keep_lowest with
      | some n => s0 ++ ", keeping lowest " ++ toString n
      | none => s0
  let s2 := if p.reroll.length > 0 then
      s1 ++ ", rerolling " ++ String.intercalate ", " (p.reroll.map toString) ++ "s"
    else s1
  let s3 := if p.exploding then
      s2 ++ ", exploding on " ++ toString p.dice_sides ++ "s"
    else s2
  let s4 :=
    match p.min_value with
    | some m => s3 ++ ", minimum value " ++ toString m
    | none => s3
  let s5 :=
    match p.target_number with
    | some t => s4 ++ ", counting successes >= " ++ toString t
    | none => s4
  match p.modifier with
  | some m =>
    if m ≠ 0 then
      s5 ++ ", " ++ (if 0 < m then "adding " ++ toString m
                     else "subtracting " ++ toString m.natAbs)
    else s5
  | none => s5

/-- The conditional minimum-value stage of `rollDice` (roll.ts:75-78). -/
def minStage (omin : Option Nat) (dice : List DieResult) : List DieResult :=
  match omin with
  | some m => applyMinValue dice m
  | none => dice

/-- The keep-highest / keep-lowest dispatch of `rollDice` (roll.ts:80-85):
`keep_highest` wins when both are set; with neither, the dice pass through
untouched. -/
def keepStage (okh okl : Option Nat) (dice : List DieResult) : List DieResult :=
  match okh with
  | some n => keepHighestDice dice n
  | none =>
    match okl with
    | some n => keepLowestDice dice n
    | none => dice

/-- Stages 1-6 of `rollDice` (roll.ts:53-112) with the draw counter made
explicit: the finalised die list together with the total number of
`rollSingleDie` calls consumed.  Stage order as in the source: initial
roll, reroll, explode, minimum value, keep highest/lowest, per-die
finalisation.  The source never reads `drop_highest` or `drop_lowest`. -/
def pipelineDice (p : RollDiceParams) (g : Nat → Nat) : List DieResult × Nat :=
  let dice0 := initialDice p.dice_count p.dice_sides g
  let s1 := if p.reroll.length > 0 then rerollDice dice0 p.reroll g p.dice_count
            else (dice0, p.dice_count)
  let s2 := if p.exploding then explodeDice s1.1 g s1.2 else s1
  ((keepStage p.keep_highest p.keep_lowest (minStage p.min_value s2.1)).map finalizeDie,
   s2.2)

/-- The aggregation step and result record of `rollDice` (roll.ts:114-142),
on top of `pipelineDice`.  The source never writes a `label` into the
result. -/
def rollDiceAux (p : RollDiceParams) (g : Nat → Nat) : RollResult × Nat :=
  let s := pipelineDice p g
  let dice := s.1
  let res : RollResult :=
    match p.target_number with
    | some t =>
      let successCount := countSuccesses dice t
      { total := (successCount : Int), successes := some successCount, total_dice := some dice.length, dice := dice, operation := generateOperation p, description := generateDescription p, label := none }
    | none =>
      { total := ((dice.filter fun d => d.kept).map fun d => (d.value : Int)).sum
                   + p.modifier.getD 0,
        successes := none, total_dice := none, dice := dice,
        operation := generateOperation p, description := generateDescription p,
        label := none }
  (res, s.2)

/-- `rollDice` proper: the result record alone. -/
def rollDice (p : RollDiceParams) (g : Nat → Nat) : RollResult :=
  (rollDiceAux p g).1

/-- The zod schema `rollDiceSchema` (`validation.ts`) as an executable
predicate: range checks, mutual exclusions and cross-field bounds. -/
def validated (p : RollDiceParams) : Bool :=
  1 ≤ p.dice_count && p.dice_count ≤ 1000 &&
  1 ≤ p.dice_sides && p.dice_sides ≤ 100 &&
  (match p.keep_highest with | some n => 1 ≤ n && n ≤ p.dice_count | none => true) &&
  (match p.keep_lowest with | some n => 1 ≤ n && n ≤ p.dice_count | none => true) &&
  (match p.drop_highest with | some n => 1 ≤ n && n < p.dice_count | none => true) &&
  (match p.drop_lowest with | some n => 1 ≤ n && n < p.dice_count | none => true) &&
  !(p.keep_highest.isSome && p.keep_lowest.isSome) &&
  !(p.drop_highest.isSome && p.drop_lowest.isSome) &&
  !((p.keep_highest.isSome || p.keep_lowest.isSome) &&
    (p.drop_highest.isSome || p.drop_lowest.isSome)) &&
  p.reroll.all (fun v => 1 ≤ v && v ≤ p.dice_sides) &&
  (match p.target_number with | some t => 1 ≤ t && t ≤ p.dice_sides | none => true) &&
  (match p.min_value with | some m => 1 ≤ m && m ≤ p.dice_sides | none => true)

/-- A draw source is admissible for `sides`-sided dice when every call
returns an integer in [1, sides], exactly the range of
`Math.floor(Math.random() * sides) + 1`. -/
def DrawsOk (g : Nat → Nat) (sides : Nat) : Prop :=
  ∀ k, 1 ≤ g k ∧ g k ≤ sides

/-- A deterministic draw source reading from a finite list of prepared
draws (draws beyond the list are never requested in the scenarios using
it). -/
def drawsFrom (l : List Nat) : Nat → Nat := fun k => l.getD k 0

/-- Placeholder die used as the default of positional lookups in theorem
statements (never an element of the lists involved). -/
def defaultDie : DieResult :=
  { die := 0, sides := 0, rolls := [], value := 0, kept := false, special := none }

/-- Concrete dice for exercising the keep-highest stage standalone: three
dice with distinct die numbers and a magnitude tie between the first two. -/
def keepWitnessDice : List DieResult :=
  [ { die := 1, sides := 6, rolls := [4], value := 0, kept := true, special := none },
    { die := 2, sides := 6, rolls := [4], value := 0, kept := true, special := none },
    { die := 3, sides := 6, rolls := [2], value := 0, kept := true, special := none } ]

/-- A parameter record with every optional field absent — the base for the
concrete scenarios below. -/
def baseParams : RollDiceParams :=
  { dice_count := 1
    dice_sides := 6
    modifier := none
    keep_highest := none
    keep_lowest := none
    drop_highest := none
    drop_lowest := none
    reroll := []
    exploding := false
    target_number := none
    min_value := none
    label := none }

/-- C1: the claim says a validated input with `drop_lowest = n` ends with
`diceCount - n` dice kept (and `drop_highest = n` marks the n greatest dice
`kept = false`).  The code never reads either field: `rollDice`
destructures neither (roll.ts:41-51) and applies only keep operations
(roll.ts:80-85), so with 4d6, `drop_lowest = 2` (resp. `drop_highest = 2`)
and draws [3, 5, 2, 6] all four dice stay kept, not two. -/
theorem rollDice_ignores_drop :
    validated { baseParams with dice_count := 4, drop_lowest := some 2 } = true ∧
    ((rollDice { baseParams with dice_count := 4, drop_lowest := some 2 }
        (drawsFrom [3, 5, 2, 6])).dice.map fun d => d.kept)
      = [true, true, true, true] ∧
    validated { baseParams with dice_count := 4, drop_highest := some 2 } = true ∧
    ((rollDice { baseParams with dice_count := 4, drop_highest := some 2 }
        (drawsFrom [3, 5, 2, 6])).dice.map fun d => d.kept)
      = [true, true, true, true] :=
  ⟨by decide, by decide, by decide, by decide⟩

/-- C3: the minimum-value invariant fails.  With `reroll = [1]`,
`exploding = true`, `min_value = 3`, first draw 1 and reroll draw 4:
`explodeDice` resets the die's "rerolled" tag to null (roll.ts:234,252),
`applyMinValue` sees last draw 4 ≥ 3 and leaves the die alone, and the
finalisation then takes `rolls[0] = 1` — a finalValue below the minimum,
contradicting both the claim and the module's own header rule that a
rerolled die uses its last roll. -/
theorem minValue_invariant_violated :
    ({ baseParams with reroll := [1], exploding := true, min_value := some 3 }
        : RollDiceParams).min_value = some 3 ∧
    ((rollDice { baseParams with reroll := [1], exploding := true, min_value := some 3 }
        (drawsFrom [1, 4])).dice.map fun d => (d.rolls, d.value))
      = [([1, 4], 1)] ∧
    validated { baseParams with reroll := [1], exploding := true, min_value := some 3 }
      = true :=
  ⟨by decide, by decide, by decide⟩

/-- C7: the claim says a validated input's label is passed through into the
returned RollResult.  The `RollResult` interface has no label field and
`rollDice` never writes one (roll.ts:135-141), so the README's own example
(3d6+3 labelled "Initiative Roll", draws [4, 2, 5], shown there with the
label inside the result) comes back without it. -/
theorem rollDice_drops_label :
    ({ baseParams with dice_count := 3, modifier := some 3, label := some "Initiative Roll" } : RollDiceParams).label
      = some "Initiative Roll" ∧
    (rollDice { baseParams with dice_count := 3, modifier := some 3, label := some "Initiative Roll" } (drawsFrom [4, 2, 5])).label = none ∧
    (rollDice { baseParams with dice_count := 3, modifier := some 3, label := some "Initiative Roll" } (drawsFrom [4, 2, 5])).total = 14 ∧
    validated { baseParams with dice_count := 3, modifier := some 3, label := some "Initiative Roll" } = true :=
  ⟨by decide, by decide, by decide, by decide⟩

/-- C8: the claim's grammar includes dh<n> / dl<n> segments.
`generateOperation` reads only `keep_highest` / `keep_lowest`
(roll.ts:322-326), so the validated input 3d6 with `drop_highest = 1`
renders as "3d6", not "3d6dh1" (the repository's unit tests expect
"3d6dh1"); `drop_lowest = 1` likewise loses its segment. -/
theorem generateOperation_omits_drop :
    validated { baseParams with dice_count := 3, drop_highest := some 1 } = true ∧
    generateOperation { baseParams with dice_count := 3, drop_highest := some 1 }
      = "3d6" ∧
    generateOperation { baseParams with dice_count := 3, drop_highest := some 1 }
      ≠ "3d6dh1" ∧
    validated { baseParams with dice_count := 3, drop_lowest := some 1 } = true ∧
    generateOperation { baseParams with dice_count := 3, drop_lowest := some 1 }
      = "3d6" :=
  ⟨by decide, by decide, by decide, by decide, by decide⟩

/-- C4 counterexample: with `reroll = [1]` and `exploding = true`, a die
whose initial draw 1 is rerolled into a 6 then explodes: draws [1, 6, 2]
give rollHistory [1, 6, 2] — three entries, not two — and finalValue
9 = 1 + 6 + 2, not the second entry. -/
theorem reroll_claim_counterexample :
    ({ baseParams with reroll := [1], exploding := true } : RollDiceParams).reroll
      = [1] ∧
    ((rollDice { baseParams with reroll := [1], exploding := true }
        (drawsFrom [1, 6, 2])).dice.map fun d => (d.rolls, d.value))
      = [([1, 6, 2], 9)] ∧
    validated { baseParams with reroll := [1], exploding := true } = true :=
  ⟨by decide, by decide, by decide⟩

/-- C5 counterexample: with `exploding = true` and `min_value = 3`, a die
drawing [6, 2] explodes once, but `applyMinValue` then overwrites the
"exploded" tag with "min-3" and forces finalValue to 3 — the die that
exploded ends without the exploded annotation and with a finalValue that is
not the sum 8 of its rollHistory. -/
theorem exploded_claim_counterexample :
    ({ baseParams with exploding := true, min_value := some 3 }
        : RollDiceParams).exploding = true ∧
    ((rollDice { baseParams with exploding := true, min_value := some 3 }
        (drawsFrom [6, 2])).dice.map fun d => (d.rolls, d.value, d.special))
      = [([6, 2], 3, some "min-3")] ∧
    validated { baseParams with exploding := true, min_value := some 3 } = true :=
  ⟨by decide, by decide, by decide⟩

/-! Shape lemmas for the pipeline stages: lengths, draw-counter bounds and
membership characterisations. -/

theorem initialDice_length (c s : Nat) (g : Nat → Nat) :
    (initialDice c s g).length = c := by
  simp [initialDice]

theorem mem_initialDice {c s : Nat} {g : Nat → Nat} {d : DieResult}
    (h : d ∈ initialDice c s g) :
    ∃ i, i < c ∧
      d = { die := i + 1, sides := s, rolls := [g i], value := 0, kept := true, special := none } := by
  simp only [initialDice, List.mem_map, List.mem_range] at h
  obtain ⟨i, hi, rfl⟩ := h
  exact ⟨i, hi, rfl⟩

theorem rerollDice_length (dice : List DieResult) (rv : List Nat)
    (g : Nat → Nat) (k : Nat) :
    (rerollDice dice rv g k).1.length = dice.length := by
  induction dice generalizing k with
  | nil => simp [rerollDice]
  | cons d rest ih =>
    simp only [rerollDice]
    split
    · simpa using ih (k + 1)
    · simpa using ih k

theorem rerollDice_snd_le (dice : List DieResult) (rv : List Nat)
    (g : Nat → Nat) (k : Nat) :
    (rerollDice dice rv g k).2 ≤ k + dice.length := by
  induction dice generalizing k with
  | nil => simp [rerollDice]
  | cons d rest ih =>
    simp only [rerollDice]
    split
    · have := ih (k + 1)
      simp only [List.length_cons]
      omega
    · have := ih k
      simp only [List.length_cons]
      omega

theorem mem_rerollDice {dice : List DieResult} {rv : List Nat}
    {g : Nat → Nat} {k : Nat} {d' : DieResult}
    (h : d' ∈ (rerollDice dice rv g k).1) :
    ∃ d ∈ dice,
      (rv.contains (d.rolls.headD 0) = false ∧ d' = d) ∨
      (∃ j, rv.contains (d.rolls.headD 0) = true ∧
        d' = { d with rolls := d.rolls ++ [g j], special := some "rerolled" }) := by
  induction dice generalizing k with
  | nil => simp [rerollDice] at h
  | cons d rest ih =>
    simp only [rerollDice] at h
    by_cases hc : rv.contains (d.rolls.headD 0) = true
    · rw [if_pos hc] at h
      rcases List.mem_cons.mp h with h1 | h1
      · exact ⟨d, List.mem_cons_self d rest, Or.inr ⟨k, hc, h1⟩⟩
      · obtain ⟨e, he, hcase⟩ := ih h1
        exact ⟨e, List.mem_cons_of_mem d he, hcase⟩
    · rw [if_neg hc] at h
      rcases List.mem_cons.mp h with h1 | h1
      · exact ⟨d, List.mem_cons_self d rest,
          Or.inl ⟨Bool.not_eq_true _ ▸ hc, h1⟩⟩
      · obtain ⟨e, he, hcase⟩ := ih h1
        exact ⟨e, List.mem_cons_of_mem d he, hcase⟩

theorem explodeRolls_take (sides : Nat) (g : Nat → Nat) (k : Nat)
    (rolls : List Nat) (fuel : Nat) :
    ((explodeRolls sides g k rolls fuel).1).take rolls.length = rolls := by
  induction fuel generalizing k rolls with
  | zero => simp [explodeRolls]
  | succ fuel ih =>
    simp only [explodeRolls]
    split
    · have h2 := ih (k + 1) (rolls ++ [g k])
      have h3 : ((explodeRolls sides g (k + 1) (rolls ++ [g k]) fuel).1).take rolls.length
          = (rolls ++ [g k]).take rolls.length := by
        have hlen : rolls.length ≤ (rolls ++ [g k]).length := by simp
        calc ((explodeRolls sides g (k + 1) (rolls ++ [g k]) fuel).1).take rolls.length
            = (((explodeRolls sides g (k + 1) (rolls ++ [g k]) fuel).1).take
                (rolls ++ [g k]).length).take rolls.length := by
              rw [List.take_take, Nat.min_eq_left hlen]
          _ = (rolls ++ [g k]).take rolls.length := by rw [h2]
      rw [h3, List.take_append_of_le_length (Nat.le_refl _), List.take_length]
    · simp

theorem explodeRolls_length_le (sides : Nat) (g : Nat → Nat) (k : Nat)
    (rolls : List Nat) (fuel : Nat) :
    (explodeRolls sides g k rolls fuel).1.length ≤ rolls.length + fuel := by
  induction fuel generalizing k rolls with
  | zero => simp [explodeRolls]
  | succ fuel ih =>
    simp only [explodeRolls]
    split
    · have := ih (k + 1) (rolls ++ [g k])
      simp only [List.length_append, List.length_cons, List.length_nil] at this
      omega
    · simp

theorem explodeRolls_length_ge (sides : Nat) (g : Nat → Nat) (k : Nat)
    (rolls : List Nat) (fuel : Nat) :
    rolls.length ≤ (explodeRolls sides g k rolls fuel).1.length := by
  induction fuel generalizing k rolls with
  | zero => simp [explodeRolls]
  | succ fuel ih =>
    simp only [explodeRolls]
    split
    · have := ih (k + 1) (rolls ++ [g k])
      simp only [List.length_append, List.length_cons, List.length_nil] at this
      omega
    · simp

theorem explodeRolls_snd_le (sides : Nat) (g : Nat → Nat) (k : Nat)
    (rolls : List Nat) (fuel : Nat) :
    (explodeRolls sides g k rolls fuel).2 ≤ k + fuel := by
  induction fuel generalizing k rolls with
  | zero => simp [explodeRolls]
  | succ fuel ih =>
    simp only [explodeRolls]
    split
    · have := ih (k + 1) (rolls ++ [g k])
      omega
    · omega

theorem explodeDice_length (dice : List DieResult) (g : Nat → Nat) (k : Nat) :
    (explodeDice dice g k).1.length = dice.length := by
  induction dice generalizing k with
  | nil => simp [explodeDice]
  | cons d rest ih => simp [explodeDice, ih]

theorem explodeDice_snd_le (dice : List DieResult) (g : Nat → Nat) (k : Nat) :
    (explodeDice dice g k).2 ≤ k + dice.length * MAX_EXPLOSION_DEPTH := by
  induction dice generalizing k with
  | nil => simp [explodeDice]
  | cons d rest ih =>
    simp only [explodeDice]
    have h1 : (explodeDie d g k).2 ≤ k + MAX_EXPLOSION_DEPTH := by
      simpa [explodeDie] using explodeRolls_snd_le d.sides g k d.rolls MAX_EXPLOSION_DEPTH
    have h2 := ih (explodeDie d g k).2
    simp only [List.length_cons]
    calc (explodeDice rest g (explodeDie d g k).2).2
        ≤ (explodeDie d g k).2 + rest.length * MAX_EXPLOSION_DEPTH := h2
      _ ≤ k + MAX_EXPLOSION_DEPTH + rest.length * MAX_EXPLOSION_DEPTH := by omega
      _ ≤ k + (rest.length + 1) * MAX_EXPLOSION_DEPTH := by ring_nf; omega

theorem mem_explodeDice {dice : List DieResult} {g : Nat → Nat} {k : Nat}
    {d' : DieResult} (h : d' ∈ (explodeDice dice g k).1) :
    ∃ d ∈ dice, ∃ j, d' = (explodeDie d g j).1 := by
  induction dice generalizing k with
  | nil => simp [explodeDice] at h
  | cons d rest ih =>
    simp only [explodeDice] at h
    rcases List.mem_cons.mp h with h1 | h1
    · exact ⟨d, List.mem_cons_self d rest, k, h1⟩
    · obtain ⟨e, he, j, hj⟩ := ih h1
      exact ⟨e, List.mem_cons_of_mem d he, j, hj⟩

theorem applyMinValue_length (dice : List DieResult) (m : Nat) :
    (applyMinValue dice m).length = dice.length := by
  simp [applyMinValue]

theorem keepHighestDice_length (dice : List DieResult) (n : Nat) :
    (keepHighestDice dice n).length = dice.length := by
  simp [keepHighestDice]

theorem keepLowestDice_length (dice : List DieResult) (n : Nat) :
    (keepLowestDice dice n).length = dice.length := by
  simp [keepLowestDice]

theorem minStage_length (omin : Option Nat) (dice : List DieResult) :
    (minStage omin dice).length = dice.length := by
  cases omin <;> simp [minStage, applyMinValue_length]

theorem keepStage_length (okh okl : Option Nat) (dice : List DieResult) :
    (keepStage okh okl dice).length = dice.length := by
  cases okh <;> cases okl <;>
    simp [keepStage, keepHighestDice_length, keepLowestDice_length]

theorem pipelineDice_length (p : RollDiceParams) (g : Nat → Nat) :
    (pipelineDice p g).1.length = p.dice_count := by
  simp only [pipelineDice, List.length_map, keepStage_length, minStage_length]
  split_ifs <;>
    simp [explodeDice_length, rerollDice_length, initialDice_length]

/-- Every die of `minStage` output arises from an input die either
unchanged (last roll at least the minimum, or no minimum set) or with its
value forced to the minimum. -/
theorem mem_minStage {omin : Option Nat} {dice : List DieResult}
    {d' : DieResult} (h : d' ∈ minStage omin dice) :
    ∃ d ∈ dice,
      ((omin = none ∨ ∃ m, omin = some m ∧ m ≤ d.rolls.getLastD 0) ∧ d' = d) ∨
      (∃ m, omin = some m ∧ d.rolls.getLastD 0 < m ∧
        d' = { d with value := m, special := some ("min-" ++ toString m) }) := by
  cases omin with
  | none => exact ⟨d', h, Or.inl ⟨Or.inl rfl, rfl⟩⟩
  | some m =>
    simp only [minStage, applyMinValue, List.mem_map] at h
    obtain ⟨d, hd, rfl⟩ := h
    by_cases hlt : d.rolls.getLastD 0 < m
    · exact ⟨d, hd, Or.inr ⟨m, rfl, hlt, by rw [if_pos hlt]⟩⟩
    · exact ⟨d, hd, Or.inl ⟨Or.inr ⟨m, rfl, Nat.le_of_not_lt hlt⟩, by rw [if_neg hlt]⟩⟩

/-- Every die of `keepStage` output is an input die with only its `kept`
flag rewritten. -/
theorem mem_keepStage {okh okl : Option Nat} {dice : List DieResult}
    {d' : DieResult} (h : d' ∈ keepStage okh okl dice) :
    ∃ d ∈ dice, ∃ b : Bool, d' = { d with kept := b } := by
  cases okh with
  | some n =>
    simp only [keepStage, keepHighestDice, List.mem_map] at h
    obtain ⟨d, hd, rfl⟩ := h
    exact ⟨d, hd, _, rfl⟩
  | none =>
    cases okl with
    | some n =>
      simp only [keepStage, keepLowestDice, List.mem_map] at h
      obtain ⟨d, hd, rfl⟩ := h
      exact ⟨d, hd, _, rfl⟩
    | none => exact ⟨d', h, d'.kept, rfl⟩

/-- Backward trace of the pipeline: every die in the finalised collection
is the finalisation of an initial die pushed through the reroll, explode,
minimum-value and keep stages, with each stage either skipped or acting as
its definition says. -/
theorem pipeline_trace (p : RollDiceParams) (g : Nat → Nat) :
    ∀ d' ∈ (pipelineDice p g).1,
      ∃ d0 ∈ initialDice p.dice_count p.dice_sides g, ∃ d1 d2 d3 : DieResult,
        ((p.reroll.contains (d0.rolls.headD 0) = false ∧ d1 = d0) ∨
          (∃ j, p.reroll.contains (d0.rolls.headD 0) = true ∧
            d1 = { d0 with rolls := d0.rolls ++ [g j], special := some "rerolled" })) ∧
        ((p.exploding = false ∧ d2 = d1) ∨
          (p.exploding = true ∧ ∃ j, d2 = (explodeDie d1 g j).1)) ∧
        (((p.min_value = none ∨
            ∃ m, p.min_value = some m ∧ m ≤ d2.rolls.getLastD 0) ∧ d3 = d2) ∨
          (∃ m, p.min_value = some m ∧ d2.rolls.getLastD 0 < m ∧
            d3 = { d2 with value := m, special := some ("min-" ++ toString m) })) ∧
        (∃ b : Bool, d' = finalizeDie { d3 with kept := b }) := by
  intro d' hd
  simp only [pipelineDice, List.mem_map] at hd
  obtain ⟨d4, hd4, rfl⟩ := hd
  obtain ⟨d3, hd3, b, rfl⟩ := mem_keepStage hd4
  obtain ⟨d2, hd2, hmin⟩ := mem_minStage hd3
  have hstep2 : ∃ d1 ∈ (if p.reroll.length > 0 then
      rerollDice (initialDice p.dice_count p.dice_sides g) p.reroll g p.dice_count
      else (initialDice p.dice_count p.dice_sides g, p.dice_count)).1,
      (p.exploding = false ∧ d2 = d1) ∨
        (p.exploding = true ∧ ∃ j, d2 = (explodeDie d1 g j).1) := by
    by_cases hex : p.exploding
    · rw [if_pos hex] at hd2
      obtain ⟨d1, hd1, j, hj⟩ := mem_explodeDice hd2
      exact ⟨d1, hd1, Or.inr ⟨hex, j, hj⟩⟩
    · rw [if_neg hex] at hd2
      exact ⟨d2, hd2, Or.inl ⟨Bool.not_eq_true _ ▸ hex, rfl⟩⟩
  obtain ⟨d1, hd1, hexp⟩ := hstep2
  have hstep1 : ∃ d0 ∈ initialDice p.dice_count p.dice_sides g,
      (p.reroll.contains (d0.rolls.headD 0) = false ∧ d1 = d0) ∨
        (∃ j, p.reroll.contains (d0.rolls.headD 0) = true ∧
          d1 = { d0 with rolls := d0.rolls ++ [g j], special := some "rerolled" }) := by
    by_cases hrr : p.reroll.length > 0
    · rw [if_pos hrr] at hd1
      obtain ⟨d0, hd0, hcase⟩ := mem_rerollDice hd1
      rcases hcase with ⟨hc, rfl⟩ | ⟨j, hc, rfl⟩
      · exact ⟨d1, hd0, Or.inl ⟨hc, rfl⟩⟩
      · exact ⟨d0, hd0, Or.inr ⟨j, hc, rfl⟩⟩
    · rw [if_neg hrr] at hd1
      have hempty : p.reroll = [] := by
        cases hp : p.reroll with
        | nil => rfl
        | cons a l => rw [hp] at hrr ; simp at hrr
      refine ⟨d1, hd1, Or.inl ⟨?_, rfl⟩⟩
      rw [hempty]
      rfl
  obtain ⟨d0, hd0, hrr⟩ := hstep1
  exact ⟨d0, hd0, d1, d2, d3, hrr, hexp, hmin, b, rfl⟩

theorem finalizeDie_rolls (d : DieResult) : (finalizeDie d).rolls = d.rolls := by
  simp only [finalizeDie]
  split_ifs <;> rfl

theorem finalizeDie_special (d : DieResult) :
    (finalizeDie d).special = d.special := by
  simp only [finalizeDie]
  split_ifs <;> rfl

theorem finalizeDie_kept (d : DieResult) : (finalizeDie d).kept = d.kept := by
  simp only [finalizeDie]
  split_ifs <;> rfl

theorem explodeDie_rolls (d : DieResult) (g : Nat → Nat) (j : Nat) :
    (explodeDie d g j).1.rolls = (explodeRolls d.sides g j d.rolls MAX_EXPLOSION_DEPTH).1 :=
  rfl

theorem explodeDie_value (d : DieResult) (g : Nat → Nat) (j : Nat) :
    (explodeDie d g j).1.value = d.value :=
  rfl

theorem explodeDie_special (d : DieResult) (g : Nat → Nat) (j : Nat) :
    (explodeDie d g j).1.special
      = if d.rolls.length < (explodeRolls d.sides g j d.rolls MAX_EXPLOSION_DEPTH).1.length
        then some "exploded" else none :=
  rfl

/-- In both aggregation modes the returned `dice` field is exactly the
finalised pipeline output. -/
theorem rollDice_dice (p : RollDiceParams) (g : Nat → Nat) :
    (rollDice p g).dice = (pipelineDice p g).1 := by
  simp only [rollDice, rollDiceAux]
  cases p.target_number <;> rfl

theorem rollDiceAux_snd (p : RollDiceParams) (g : Nat → Nat) :
    (rollDiceAux p g).2 = (pipelineDice p g).2 := by
  simp only [rollDiceAux]

/-- The draw counter after the pipeline is bounded by one initial draw, at
most one reroll draw and at most `MAX_EXPLOSION_DEPTH` explosion draws per
die. -/
theorem pipelineDice_snd_le (p : RollDiceParams) (g : Nat → Nat) :
    (pipelineDice p g).2 ≤ p.dice_count * (2 + MAX_EXPLOSION_DEPTH) := by
  simp only [pipelineDice]
  set s1 := (if p.reroll.length > 0 then
      rerollDice (initialDice p.dice_count p.dice_sides g) p.reroll g p.dice_count
      else (initialDice p.dice_count p.dice_sides g, p.dice_count)) with hdef
  have h1 : s1.2 ≤ p.dice_count * 2 := by
    rw [hdef]
    split_ifs
    · have := rerollDice_snd_le (initialDice p.dice_count p.dice_sides g)
        p.reroll g p.dice_count
      rw [initialDice_length] at this
      omega
    · simp
      omega
  have h2 : s1.1.length = p.dice_count := by
    rw [hdef]
    split_ifs
    · rw [rerollDice_length, initialDice_length]
    · exact initialDice_length _ _ _
  split_ifs with hex
  · have h3 := explodeDice_snd_le s1.1 g s1.2
    rw [h2] at h3
    simp only [MAX_EXPLOSION_DEPTH] at h3 ⊢
    omega
  · simp only [MAX_EXPLOSION_DEPTH]
    omega

/-- C9: every invocation of the roll pipeline terminates with bounded work:
the result always holds exactly `dice_count` dice; every die's rollHistory
is nonempty and has at most `1 (initial) + 1 (reroll) + MAX_EXPLOSION_DEPTH`
entries, whatever the random source returns (so even a die that rolls the
maximum forever, e.g. on a 1-sided die, stops after 10 extra draws); and
the total number of random draws consumed is at most
`dice_count * (2 + MAX_EXPLOSION_DEPTH)`. -/
theorem rollDice_terminates_bounded (p : RollDiceParams) (g : Nat → Nat) :
    (rollDice p g).dice.length = p.dice_count ∧
    (∀ d ∈ (rollDice p g).dice,
      1 ≤ d.rolls.length ∧ d.rolls.length ≤ 2 + MAX_EXPLOSION_DEPTH) ∧
    (rollDiceAux p g).2 ≤ p.dice_count * (2 + MAX_EXPLOSION_DEPTH) := by
  refine ⟨by rw [rollDice_dice, pipelineDice_length], ?_, ?_⟩
  · intro d hd
    rw [rollDice_dice] at hd
    obtain ⟨d0, hd0, d1, d2, d3, hrr, hexp, hmin, b, rfl⟩ := pipeline_trace p g d hd
    obtain ⟨i, hi, rfl⟩ := mem_initialDice hd0
    have h1 : 1 ≤ d1.rolls.length ∧ d1.rolls.length ≤ 2 := by
      rcases hrr with ⟨_, rfl⟩ | ⟨j, _, rfl⟩ <;> simp
    have h2 : 1 ≤ d2.rolls.length ∧ d2.rolls.length ≤ 2 + MAX_EXPLOSION_DEPTH := by
      rcases hexp with ⟨_, rfl⟩ | ⟨_, j, rfl⟩
      · exact ⟨h1.1, by omega⟩
      · rw [explodeDie_rolls]
        have hge := explodeRolls_length_ge d1.sides g j d1.rolls MAX_EXPLOSION_DEPTH
        have hle := explodeRolls_length_le d1.sides g j d1.rolls MAX_EXPLOSION_DEPTH
        omega
    have h3 : d3.rolls = d2.rolls := by
      rcases hmin with ⟨_, rfl⟩ | ⟨m, _, _, rfl⟩ <;> rfl
    rw [finalizeDie_rolls]
    simpa [h3] using h2
  · rw [rollDiceAux_snd]
    exact pipelineDice_snd_le p g

/-- C10: with `target_number` set, changing only the modifier changes none
of the computed numbers: the pipeline never reads the modifier, and the
target-number aggregation (roll.ts:119-123) uses `countSuccesses` alone, so
`total`, `successes`, `total_dice` and the entire per-die list coincide;
only the rendered strings may differ. -/
theorem target_mode_ignores_modifier (p q : RollDiceParams) (g : Nat → Nat)
    (m : Option Int) (t : Nat)
    (hq : q = { p with modifier := m }) (ht : p.target_number = some t) :
    (rollDice q g).total = (rollDice p g).total ∧
    (rollDice q g).successes = (rollDice p g).successes ∧
    (rollDice q g).total_dice = (rollDice p g).total_dice ∧
    (rollDice q g).dice = (rollDice p g).dice := by
  subst hq
  have hqt : ({ p with modifier := m } : RollDiceParams).target_number = some t := ht
  refine ⟨?_, ?_, ?_, ?_⟩ <;> simp only [rollDice, rollDiceAux, ht, hqt] <;> rfl

/-- Witness for C10 at the spec's target-number scenario (5d10, target 8)
with the modifier changed from absent to +7. -/
theorem target_mode_ignores_modifier_witness :
    ({ baseParams with dice_count := 5, dice_sides := 10, target_number := some 8, modifier := some 7 } : RollDiceParams)
      = { { baseParams with dice_count := 5, dice_sides := 10, target_number := some 8 } with modifier := some 7 } ∧
    ({ baseParams with dice_count := 5, dice_sides := 10, target_number := some 8 } : RollDiceParams).target_number = some 8 ∧
    ((rollDice { baseParams with dice_count := 5, dice_sides := 10, target_number := some 8, modifier := some 7 } (drawsFrom [8, 3, 9, 1, 10])).total
        = (rollDice { baseParams with dice_count := 5, dice_sides := 10, target_number := some 8 } (drawsFrom [8, 3, 9, 1, 10])).total ∧
      (rollDice { baseParams with dice_count := 5, dice_sides := 10, target_number := some 8, modifier := some 7 } (drawsFrom [8, 3, 9, 1, 10])).successes
        = (rollDice { baseParams with dice_count := 5, dice_sides := 10, target_number := some 8 } (drawsFrom [8, 3, 9, 1, 10])).successes ∧
      (rollDice { baseParams with dice_count := 5, dice_sides := 10, target_number := some 8, modifier := some 7 } (drawsFrom [8, 3, 9, 1, 10])).total_dice
        = (rollDice { baseParams with dice_count := 5, dice_sides := 10, target_number := some 8 } (drawsFrom [8, 3, 9, 1, 10])).total_dice ∧
      (rollDice { baseParams with dice_count := 5, dice_sides := 10, target_number := some 8, modifier := some 7 } (drawsFrom [8, 3, 9, 1, 10])).dice
        = (rollDice { baseParams with dice_count := 5, dice_sides := 10, target_number := some 8 } (drawsFrom [8, 3, 9, 1, 10])).dice) :=
  ⟨rfl, rfl,
    target_mode_ignores_modifier
      { baseParams with dice_count := 5, dice_sides := 10, target_number := some 8 }
      { baseParams with dice_count := 5, dice_sides := 10, target_number := some 8, modifier := some 7 }
      (drawsFrom [8, 3, 9, 1, 10]) (some 7) 8 rfl rfl⟩

theorem headD_mem : ∀ (l : List Nat), l ≠ [] → l.headD 0 ∈ l
  | a :: _, _ => List.mem_cons_self a _

theorem getLastD_mem_general : ∀ (l : List Nat) (dflt : Nat), l ≠ [] → l.getLastD dflt ∈ l
  | [a], dflt, _ => by simp [List.getLastD]
  | a :: b :: t, dflt, _ => by
    have h2 := getLastD_mem_general (b :: t) a (by simp)
    rw [List.getLastD_cons]
    exact List.mem_cons_of_mem a h2

theorem getLastD_mem (l : List Nat) (h : l ≠ []) : l.getLastD 0 ∈ l :=
  getLastD_mem_general l 0 h

theorem sum_pos_of_mem_pos {l : List Nat} (hne : l ≠ [])
    (h : ∀ r ∈ l, 1 ≤ r) : 1 ≤ l.sum := by
  cases l with
  | nil => exact absurd rfl hne
  | cons a t =>
    have ha : 1 ≤ a := h a (List.mem_cons_self a t)
    simp only [List.sum_cons]
    omega

theorem explodeRolls_all_pos (sides : Nat) (g : Nat → Nat) (k : Nat)
    (rolls : List Nat) (fuel : Nat) (hg : ∀ j, 1 ≤ g j)
    (h : ∀ r ∈ rolls, 1 ≤ r) :
    ∀ r ∈ (explodeRolls sides g k rolls fuel).1, 1 ≤ r := by
  induction fuel generalizing k rolls with
  | zero => simpa [explodeRolls] using h
  | succ fuel ih =>
    simp only [explodeRolls]
    split
    · refine ih (k + 1) (rolls ++ [g k]) ?_
      intro r hr
      rcases List.mem_append.mp hr with hr | hr
      · exact h r hr
      · simp only [List.mem_singleton] at hr
        exact hr ▸ hg k
    · exact h

/-- With an admissible draw source and a positive minimum, every finalised
die carries a strictly positive value. -/
theorem pipelineDice_value_pos (p : RollDiceParams) (g : Nat → Nat)
    (hg : ∀ k, 1 ≤ g k) (hm : ∀ m, p.min_value = some m → 1 ≤ m) :
    ∀ d ∈ (pipelineDice p g).1, 1 ≤ d.value := by
  intro d hd
  obtain ⟨d0, hd0, d1, d2, d3, hrr, hexp, hmin, b, rfl⟩ := pipeline_trace p g d hd
  obtain ⟨i, hi, rfl⟩ := mem_initialDice hd0
  have h1 : d1.rolls ≠ [] ∧ (∀ r ∈ d1.rolls, 1 ≤ r) ∧ d1.value = 0 := by
    rcases hrr with ⟨_, rfl⟩ | ⟨j, _, rfl⟩
    · refine ⟨by simp, ?_, rfl⟩
      intro r hr
      simp only [List.mem_singleton] at hr
      exact hr ▸ hg i
    · refine ⟨by simp, ?_, rfl⟩
      intro r hr
      simp only [List.cons_append, List.nil_append, List.mem_cons,
        List.mem_singleton, List.not_mem_nil, or_false] at hr
      rcases hr with rfl | rfl
      · exact hg i
      · exact hg j
  have h2 : d2.rolls ≠ [] ∧ (∀ r ∈ d2.rolls, 1 ≤ r) ∧ d2.value = 0 := by
    rcases hexp with ⟨_, rfl⟩ | ⟨_, j, rfl⟩
    · exact h1
    · refine ⟨?_, ?_, h1.2.2⟩
      · have hge := explodeRolls_length_ge d1.sides g j d1.rolls MAX_EXPLOSION_DEPTH
        rw [explodeDie_rolls]
        intro hnil
        rw [hnil] at hge
        simp only [List.length_nil, Nat.le_zero, List.length_eq_zero] at hge
        exact h1.1 hge
      · rw [explodeDie_rolls]
        exact explodeRolls_all_pos d1.sides g j d1.rolls MAX_EXPLOSION_DEPTH hg h1.2.1
  have hfin : ∀ e : DieResult, e.rolls ≠ [] → (∀ r ∈ e.rolls, 1 ≤ r) →
      (e.value = 0 ∨ 1 ≤ e.value) → 1 ≤ (finalizeDie e).value := by
    intro e hne hpos hval
    simp only [finalizeDie]
    split_ifs with h1v h2v h3v
    · exact h1v
    · exact sum_pos_of_mem_pos hne hpos
    · exact hpos _ (getLastD_mem e.rolls hne)
    · exact hpos _ (headD_mem e.rolls hne)
  rcases hmin with ⟨_, hd3⟩ | ⟨m, hsome, _, hd3⟩
  · rw [hd3]
    exact hfin { d2 with kept := b } h2.1 h2.2.1 (Or.inl h2.2.2)
  · have hm1 : 1 ≤ m := hm m hsome
    rw [hd3]
    exact hfin { d2 with value := m, special := some ("min-" ++ toString m), kept := b }
      h2.1 h2.2.1 (Or.inr hm1)

/-- C2: in target-number mode, `successes` is the number of dice whose
final value reaches the target, counted over all dice with no regard to
`kept` (roll.ts:290-299 filters the full list); `total` equals that count
(roll.ts:123) and `total_dice` equals the dice count. -/
theorem target_mode_counts (p : RollDiceParams) (g : Nat → Nat) (t : Nat)
    (hv : validated p = true) (hg : DrawsOk g p.dice_sides)
    (ht : p.target_number = some t) :
    (rollDice p g).successes
      = some (((rollDice p g).dice.filter fun d => t ≤ d.value).length) ∧
    (rollDice p g).total
      = ((((rollDice p g).dice.filter fun d => t ≤ d.value).length : Nat) : Int) ∧
    (rollDice p g).total_dice = some p.dice_count := by
  have hg1 : ∀ k, 1 ≤ g k := fun k => (hg k).1
  have hm : ∀ m, p.min_value = some m → 1 ≤ m := by
    intro m hsome
    simp only [validated, hsome, Bool.and_eq_true, decide_eq_true_eq] at hv
    exact hv.2.1
  have hval := pipelineDice_value_pos p g hg1 hm
  have hcount : countSuccesses (pipelineDice p g).1 t
      = (((pipelineDice p g).1.filter fun d => t ≤ d.value).length) := by
    unfold countSuccesses
    congr 1
    refine List.filter_congr ?_
    intro d hd
    rw [if_pos (show 0 < d.value from hval d hd)]
  refine ⟨?_, ?_, ?_⟩ <;>
    simp only [rollDice, rollDiceAux, ht] <;>
    simp [hcount, pipelineDice_length]

/-- Witness for C2: 5d10 against target 8 with a constant draw source. -/
theorem target_mode_counts_witness :
    validated { baseParams with dice_count := 5, dice_sides := 10, target_number := some 8 } = true ∧
    DrawsOk (fun _ => 9) ({ baseParams with dice_count := 5, dice_sides := 10, target_number := some 8 } : RollDiceParams).dice_sides ∧
    ({ baseParams with dice_count := 5, dice_sides := 10, target_number := some 8 } : RollDiceParams).target_number = some 8 ∧
    ((rollDice { baseParams with dice_count := 5, dice_sides := 10, target_number := some 8 } (fun _ => 9)).successes
        = some (((rollDice { baseParams with dice_count := 5, dice_sides := 10, target_number := some 8 } (fun _ => 9)).dice.filter fun d => 8 ≤ d.value).length) ∧
      (rollDice { baseParams with dice_count := 5, dice_sides := 10, target_number := some 8 } (fun _ => 9)).total
        = ((((rollDice { baseParams with dice_count := 5, dice_sides := 10, target_number := some 8 } (fun _ => 9)).dice.filter fun d => 8 ≤ d.value).length : Nat) : Int) ∧
      (rollDice { baseParams with dice_count := 5, dice_sides := 10, target_number := some 8 } (fun _ => 9)).total_dice
        = some ({ baseParams with dice_count := 5, dice_sides := 10, target_number := some 8 } : RollDiceParams).dice_count) :=
  ⟨by decide, fun k => ⟨by norm_num, by norm_num⟩, rfl,
    target_mode_counts
      { baseParams with dice_count := 5, dice_sides := 10, target_number := some 8 }
      (fun _ => 9) 8 (by decide) (fun k => ⟨by norm_num, by norm_num⟩) rfl⟩

theorem finalizeDie_rerolled {e : DieResult} (h0 : e.value = 0)
    (hs : e.special = some "rerolled") :
    finalizeDie e = { e with value := e.rolls.getLastD 0 } := by
  simp [finalizeDie, h0, hs]

theorem finalizeDie_exploded {e : DieResult} (h0 : e.value = 0)
    (hs : e.special = some "exploded") :
    finalizeDie e = { e with value := e.rolls.sum } := by
  simp [finalizeDie, h0, hs]

/-- C4 (amended): for a validated input with `exploding` unset and
`min_value` unset, every die whose initial draw is in the reroll set ends
with exactly two rollHistory entries, is annotated "rerolled" (hence never
"exploded" — the `special` tag holds a single value), and its finalValue
equals the second entry. -/
theorem reroll_two_entries (p : RollDiceParams) (g : Nat → Nat)
    (hv : validated p = true) (hex : p.exploding = false)
    (hmin : p.min_value = none) :
    ∀ d ∈ (rollDice p g).dice, d.rolls.headD 0 ∈ p.reroll →
      d.rolls.length = 2 ∧ d.special = some "rerolled" ∧
      d.value = d.rolls.getLastD 0 := by
  intro d hd hmem
  rw [rollDice_dice] at hd
  obtain ⟨d0, hd0, d1, d2, d3, hrr, hexp, hmin3, b, rfl⟩ := pipeline_trace p g d hd
  obtain ⟨i, hi, rfl⟩ := mem_initialDice hd0
  have hd2 : d2 = d1 := by
    rcases hexp with ⟨_, h⟩ | ⟨hcontra, _⟩
    · exact h
    · rw [hex] at hcontra
      cases hcontra
  have hd3 : d3 = d2 := by
    rcases hmin3 with ⟨_, h⟩ | ⟨m, hsome, _, _⟩
    · exact h
    · rw [hmin] at hsome
      cases hsome
  rw [hd3, hd2] at hmem ⊢
  rcases hrr with ⟨hc, hd1⟩ | ⟨j, hc, hd1⟩
  · exfalso
    rw [hd1] at hmem
    rw [finalizeDie_rolls] at hmem
    simp only [List.headD_cons] at hmem
    simp only [List.headD_cons] at hc
    have hcontains : p.reroll.contains (g i) = true := List.elem_iff.mpr hmem
    rw [hcontains] at hc
    cases hc
  · rw [hd1]
    rw [finalizeDie_rerolled rfl rfl]
    refine ⟨by simp, rfl, by simp⟩

/-- Witness for C4 at the spec's reroll scenario (3d6, reroll 1s, draws
[1, 3, 1] then rerolls 4 and 6). -/
theorem reroll_two_entries_witness :
    validated { baseParams with dice_count := 3, reroll := [1] } = true ∧
    ({ baseParams with dice_count := 3, reroll := [1] } : RollDiceParams).exploding = false ∧
    ({ baseParams with dice_count := 3, reroll := [1] } : RollDiceParams).min_value = none ∧
    (∀ d ∈ (rollDice { baseParams with dice_count := 3, reroll := [1] }
        (drawsFrom [1, 3, 1, 4, 6])).dice,
      d.rolls.headD 0 ∈ ({ baseParams with dice_count := 3, reroll := [1] } : RollDiceParams).reroll →
        d.rolls.length = 2 ∧ d.special = some "rerolled" ∧
        d.value = d.rolls.getLastD 0) :=
  ⟨by decide, rfl, rfl,
    reroll_two_entries { baseParams with dice_count := 3, reroll := [1] }
      (drawsFrom [1, 3, 1, 4, 6]) (by decide) rfl rfl⟩

theorem headD_eq_getD (l : List Nat) : l.headD 0 = l.getD 0 0 := by
  cases l <;> rfl

theorem getD_of_take {l t : List Nat} {n : Nat} (h : l.take n = t) {i : Nat}
    (hi : i < n) : l.getD i 0 = t.getD i 0 := by
  have h1 : l[i]? = (l.take n)[i]? := (List.getElem?_take_of_lt hi).symm
  rw [List.getD_eq_getElem?_getD, List.getD_eq_getElem?_getD, ← h, h1]

theorem headD_of_take {l t : List Nat} {n : Nat} (h : l.take n = t)
    (hne : t ≠ []) : l.headD 0 = t.headD 0 := by
  have hn : 0 < n := by
    rcases Nat.eq_zero_or_pos n with rfl | hn
    · simp at h
      exact absurd h hne
    · exact hn
  rw [headD_eq_getD, headD_eq_getD]
  exact getD_of_take h hn

theorem getLastD_eq_getD {l : List Nat} (hne : l ≠ []) :
    l.getLastD 0 = l.getD (l.length - 1) 0 := by
  rw [List.getLastD_eq_getLast?, List.getLast?_eq_getElem?,
    List.getD_eq_getElem?_getD]

/-- The explosion loop stops at the first non-maximum draw: a final roll
list still ending in the maximum used up all its fuel. -/
theorem explodeRolls_last_max (sides : Nat) (g : Nat → Nat) (k : Nat)
    (rolls : List Nat) (fuel : Nat) :
    (explodeRolls sides g k rolls fuel).1.getLastD 0 = sides →
    (explodeRolls sides g k rolls fuel).1.length = rolls.length + fuel := by
  induction fuel generalizing k rolls with
  | zero =>
    intro _
    simp [explodeRolls]
  | succ fuel ih =>
    intro h
    by_cases hlast : rolls.getLastD 0 = sides
    · simp only [explodeRolls, if_pos hlast] at h ⊢
      have := ih (k + 1) (rolls ++ [g k]) h
      simp only [List.length_append, List.length_cons, List.length_nil] at this ⊢
      omega
    · simp only [explodeRolls, if_neg hlast] at h
      exact absurd h hlast

/-- Every rollHistory entry appended by the explosion loop was drawn while
the then-latest entry equalled `sides`: the entry right before each
appended position is the maximum. -/
theorem explodeRolls_appended (sides : Nat) (g : Nat → Nat) (k : Nat)
    (rolls : List Nat) (fuel : Nat) (hne : rolls ≠ []) :
    ∀ j, rolls.length ≤ j → j < (explodeRolls sides g k rolls fuel).1.length →
      (explodeRolls sides g k rolls fuel).1.getD (j - 1) 0 = sides := by
  induction fuel generalizing k rolls with
  | zero =>
    intro j h1 h2
    simp only [explodeRolls] at h2
    omega
  | succ fuel ih =>
    intro j h1 h2
    by_cases hlast : rolls.getLastD 0 = sides
    · simp only [explodeRolls, if_pos hlast] at h2 ⊢
      rcases Nat.lt_or_ge j (rolls.length + 1) with hj | hj
      · have hjeq : j = rolls.length := by omega
        subst hjeq
        have htake : ((explodeRolls sides g (k + 1) (rolls ++ [g k]) fuel).1).take
            (rolls ++ [g k]).length = rolls ++ [g k] :=
          explodeRolls_take sides g (k + 1) (rolls ++ [g k]) fuel
        have hlen : rolls.length - 1 < (rolls ++ [g k]).length := by
          simp only [List.length_append, List.length_cons, List.length_nil]
          omega
        rw [getD_of_take htake hlen]
        have hlt : rolls.length - 1 < rolls.length := by
          have : rolls.length ≠ 0 := fun h0 => hne (List.length_eq_zero.mp h0)
          omega
        have happ : (rolls ++ [g k]).getD (rolls.length - 1) 0
            = rolls.getD (rolls.length - 1) 0 := by
          rw [List.getD_eq_getElem?_getD, List.getD_eq_getElem?_getD,
            List.getElem?_append_left hlt]
        rw [happ, ← getLastD_eq_getD hne]
        exact hlast
      · have := ih (k + 1) (rolls ++ [g k]) (by simp) j
        simp only [List.length_append, List.length_cons, List.length_nil] at this
        exact this (by omega) h2
    · simp only [explodeRolls, if_neg hlast] at h2
      omega

/-- One die of the explode stage followed by the kept-flag rewrite and the
finalisation, characterised from its pre-explosion state. -/
theorem explode_one_die (g : Nat → Nat) (j : Nat) (e1 : DieResult)
    (hne : e1.rolls ≠ []) (hval : e1.value = 0) (b : Bool) :
    (finalizeDie { (explodeDie e1 g j).1 with kept := b }).rolls.headD 0
        = e1.rolls.headD 0 ∧
    (finalizeDie { (explodeDie e1 g j).1 with kept := b }).rolls.length
        ≤ e1.rolls.length + MAX_EXPLOSION_DEPTH ∧
    (∀ i2, e1.rolls.length ≤ i2 →
      i2 < (finalizeDie { (explodeDie e1 g j).1 with kept := b }).rolls.length →
      (finalizeDie { (explodeDie e1 g j).1 with kept := b }).rolls.getD (i2 - 1) 0
        = e1.sides) ∧
    ((finalizeDie { (explodeDie e1 g j).1 with kept := b }).rolls.getLastD 0
        = e1.sides →
      (finalizeDie { (explodeDie e1 g j).1 with kept := b }).rolls.length
        = e1.rolls.length + MAX_EXPLOSION_DEPTH) ∧
    ((finalizeDie { (explodeDie e1 g j).1 with kept := b }).special
        = some "exploded" ↔
      e1.rolls.length
        < (finalizeDie { (explodeDie e1 g j).1 with kept := b }).rolls.length) ∧
    ((finalizeDie { (explodeDie e1 g j).1 with kept := b }).special
        = some "exploded" →
      (finalizeDie { (explodeDie e1 g j).1 with kept := b }).value
        = (finalizeDie { (explodeDie e1 g j).1 with kept := b }).rolls.sum) := by
  have hrolls : (finalizeDie { (explodeDie e1 g j).1 with kept := b }).rolls
      = (explodeRolls e1.sides g j e1.rolls MAX_EXPLOSION_DEPTH).1 := by
    rw [finalizeDie_rolls]
    rfl
  have hspec : (finalizeDie { (explodeDie e1 g j).1 with kept := b }).special
      = if e1.rolls.length < (explodeRolls e1.sides g j e1.rolls MAX_EXPLOSION_DEPTH).1.length
        then some "exploded" else none := by
    rw [finalizeDie_special]
    rfl
  refine ⟨?_, ?_, ?_, ?_, ?_, ?_⟩
  · rw [hrolls]
    exact headD_of_take (explodeRolls_take e1.sides g j e1.rolls MAX_EXPLOSION_DEPTH) hne
  · rw [hrolls]
    exact explodeRolls_length_le e1.sides g j e1.rolls MAX_EXPLOSION_DEPTH
  · rw [hrolls]
    exact explodeRolls_appended e1.sides g j e1.rolls MAX_EXPLOSION_DEPTH hne
  · rw [hrolls]
    exact explodeRolls_last_max e1.sides g j e1.rolls MAX_EXPLOSION_DEPTH
  · rw [hrolls, hspec]
    by_cases hgrew : e1.rolls.length
        < (explodeRolls e1.sides g j e1.rolls MAX_EXPLOSION_DEPTH).1.length
    · simp [hgrew]
    · simp [hgrew]
  · intro hs
    have hs2 : ({ (explodeDie e1 g j).1 with kept := b } : DieResult).special
        = some "exploded" := by
      rw [← finalizeDie_special ({ (explodeDie e1 g j).1 with kept := b })]
      exact hs
    have hv2 : ({ (explodeDie e1 g j).1 with kept := b } : DieResult).value = 0 := by
      simpa [explodeDie_value] using hval
    rw [finalizeDie_exploded hv2 hs2]

/-- C5 (amended): for a validated input with `exploding = true` and
`min_value` unset, each die's rollHistory is its pre-explosion entries (two
when the initial draw was rerolled, one otherwise) followed only by draws
made while the then-latest entry equalled diceSides; at most
MAX_EXPLOSION_DEPTH entries are appended; a history still ending in the
maximum used exactly MAX_EXPLOSION_DEPTH extra draws; the die is annotated
"exploded" iff at least one explosion draw occurred, and then its
finalValue is the sum of all rollHistory entries. -/
theorem exploding_growth (p : RollDiceParams) (g : Nat → Nat)
    (hv : validated p = true) (hex : p.exploding = true)
    (hmin : p.min_value = none) :
    ∀ d ∈ (rollDice p g).dice,
      d.rolls.length
          ≤ (if p.reroll.contains (d.rolls.headD 0) = true then 2 else 1)
            + MAX_EXPLOSION_DEPTH ∧
      (∀ j, (if p.reroll.contains (d.rolls.headD 0) = true then 2 else 1) ≤ j →
        j < d.rolls.length → d.rolls.getD (j - 1) 0 = p.dice_sides) ∧
      (d.rolls.getLastD 0 = p.dice_sides →
        d.rolls.length
          = (if p.reroll.contains (d.rolls.headD 0) = true then 2 else 1)
            + MAX_EXPLOSION_DEPTH) ∧
      (d.special = some "exploded" ↔
        (if p.reroll.contains (d.rolls.headD 0) = true then 2 else 1)
          < d.rolls.length) ∧
      (d.special = some "exploded" → d.value = d.rolls.sum) := by
  intro d hd
  rw [rollDice_dice] at hd
  obtain ⟨d0, hd0, d1, d2, d3, hrr, hexp, hmin3, b, rfl⟩ := pipeline_trace p g d hd
  obtain ⟨i, hi, rfl⟩ := mem_initialDice hd0
  have hd3 : d3 = d2 := by
    rcases hmin3 with ⟨_, h⟩ | ⟨m, hsome, _, _⟩
    · exact h
    · rw [hmin] at hsome
      cases hsome
  obtain ⟨j, hd2⟩ : ∃ j, d2 = (explodeDie d1 g j).1 := by
    rcases hexp with ⟨hc, _⟩ | ⟨_, hj⟩
    · rw [hex] at hc
      cases hc
    · exact hj
  rw [hd3, hd2]
  have hfacts : d1.sides = p.dice_sides ∧ d1.value = 0 ∧ d1.rolls ≠ [] ∧
      d1.rolls.headD 0 = g i ∧
      d1.rolls.length = (if p.reroll.contains (g i) = true then 2 else 1) := by
    rcases hrr with ⟨hc, hd1⟩ | ⟨j2, hc, hd1⟩ <;>
      simp only [List.headD_cons] at hc
    · have hnm : g i ∉ p.reroll := by
        intro hm
        have hc2 : p.reroll.contains (g i) = true := List.elem_iff.mpr hm
        rw [hc2] at hc
        cases hc
      rw [hd1]
      simp [hnm]
    · have hm : g i ∈ p.reroll := List.elem_iff.mp hc
      rw [hd1]
      simp [hm]
  obtain ⟨hsides, hval0, hne1, hhead1, hlen1⟩ := hfacts
  obtain ⟨h1, h2, h3, h4, h5, h6⟩ := explode_one_die g j d1 hne1 hval0 b
  rw [hsides] at h3 h4
  rw [h1, hhead1, ← hlen1]
  exact ⟨h2, h3, h4, h5, h6⟩

/-- Witness for C5 at the spec's exploding scenario (2d6 exploding, die 1
drawing 6 then 6 then 2, die 2 drawing 3). -/
theorem exploding_growth_witness :
    validated { baseParams with dice_count := 2, exploding := true } = true ∧
    ({ baseParams with dice_count := 2, exploding := true } : RollDiceParams).exploding = true ∧
    ({ baseParams with dice_count := 2, exploding := true } : RollDiceParams).min_value = none ∧
    (∀ d ∈ (rollDice { baseParams with dice_count := 2, exploding := true }
        (drawsFrom [6, 3, 6, 2])).dice,
      d.rolls.length
          ≤ (if ({ baseParams with dice_count := 2, exploding := true } : RollDiceParams).reroll.contains (d.rolls.headD 0) = true then 2 else 1)
            + MAX_EXPLOSION_DEPTH ∧
      (∀ j, (if ({ baseParams with dice_count := 2, exploding := true } : RollDiceParams).reroll.contains (d.rolls.headD 0) = true then 2 else 1) ≤ j →
        j < d.rolls.length → d.rolls.getD (j - 1) 0 = ({ baseParams with dice_count := 2, exploding := true } : RollDiceParams).dice_sides) ∧
      (d.rolls.getLastD 0 = ({ baseParams with dice_count := 2, exploding := true } : RollDiceParams).dice_sides →
        d.rolls.length
          = (if ({ baseParams with dice_count := 2, exploding := true } : RollDiceParams).reroll.contains (d.rolls.headD 0) = true then 2 else 1)
            + MAX_EXPLOSION_DEPTH) ∧
      (d.special = some "exploded" ↔
        (if ({ baseParams with dice_count := 2, exploding := true } : RollDiceParams).reroll.contains (d.rolls.headD 0) = true then 2 else 1)
          < d.rolls.length) ∧
      (d.special = some "exploded" → d.value = d.rolls.sum)) :=
  ⟨by decide, rfl, rfl,
    exploding_growth { baseParams with dice_count := 2, exploding := true }
      (drawsFrom [6, 3, 6, 2]) (by decide) rfl rfl⟩

/-! Lemmas for the keep-highest stage: the `findIndex` lookup, the stable
sort, and the counting argument. -/

theorem keepMatches_self (x : DieResult) : keepMatches x x = true := by
  simp [keepMatches, List.isPrefixOf_iff_prefix]

theorem eq_of_keepMatches {dice : List DieResult}
    (hd : dice.Pairwise fun a b => a.die ≠ b.die) {x y : DieResult}
    (hx : x ∈ dice) (hy : y ∈ dice) (h : keepMatches x y = true) : y = x := by
  simp only [keepMatches, Bool.and_eq_true, beq_iff_eq] at h
  by_contra hne
  have hsym : Symmetric (fun a b : DieResult => a.die ≠ b.die) :=
    fun a b hab => Ne.symm hab
  exact List.Pairwise.forall hsym hd hy hx hne h.1.1

theorem findIdx_congr {l : List DieResult} {p q : DieResult → Bool}
    (h : ∀ x ∈ l, p x = q x) : l.findIdx p = l.findIdx q := by
  induction l with
  | nil => rfl
  | cons a t ih =>
    simp only [List.findIdx_cons, h a (List.mem_cons_self a t)]
    rw [ih fun x hx => h x (List.mem_cons_of_mem a hx)]

theorem findIdx_beq_lt_length {l : List DieResult} {x : DieResult}
    (hx : x ∈ l) : l.findIdx (fun y => y == x) < l.length :=
  List.findIdx_lt_length_of_exists ⟨x, hx, by simp⟩

theorem getElem_findIdx_beq {l : List DieResult} {x : DieResult} (hx : x ∈ l) :
    l.get ⟨l.findIdx (fun y => y == x), findIdx_beq_lt_length hx⟩ = x := by
  have h2 : (l.get ⟨l.findIdx (fun y => y == x), findIdx_beq_lt_length hx⟩ == x)
      = true := by
    have h3 := @List.findIdx_getElem _ (fun y => y == x) l (findIdx_beq_lt_length hx)
    simpa using h3
  exact eq_of_beq h2

/-- Counting argument: over a duplicate-free list, exactly `min n length`
elements sit at a position below `n` of that same list. -/
theorem countP_findIdx_lt :
    ∀ (l : List DieResult) (n : Nat), l.Nodup →
      l.countP (fun x => decide (l.findIdx (fun y => y == x) < n))
        = min n l.length
  | [], n, _ => by simp
  | a :: t, n, hl => by
    have hat : a ∉ t := (List.nodup_cons.mp hl).1
    have hnt : t.Nodup := (List.nodup_cons.mp hl).2
    rw [List.countP_cons]
    have hhead : ((a :: t).findIdx (fun y => y == a)) = 0 := by
      simp [List.findIdx_cons]
    have htail : t.countP (fun x => decide ((a :: t).findIdx (fun y => y == x) < n))
        = t.countP (fun x => decide (t.findIdx (fun y => y == x) < n - 1)) := by
      refine List.countP_congr ?_
      intro x hx
      have hax : (a == x) = false := by
        have : a ≠ x := fun he => hat (he ▸ hx)
        exact beq_eq_false_iff_ne.mpr this
      simp only [List.findIdx_cons, hax, cond_false, decide_eq_true_eq]
      constructor
      · intro h1
        omega
      · intro h1
        omega
    rw [htail, countP_findIdx_lt t (n - 1) hnt, hhead]
    simp only [decide_eq_true_eq, List.length_cons]
    have hc : (if 0 < n then 1 else 0) = (if 0 < n then 1 else 0) := rfl
    split_ifs with h0
    · omega
    · omega

/-- A two-element sublist of a duplicate-free list occupies strictly
increasing first-occurrence positions. -/
theorem pair_sublist_findIdx_lt {a c : DieResult} :
    ∀ {l : List DieResult}, l.Nodup → List.Sublist [a, c] l →
      l.findIdx (fun y => y == a) < l.findIdx (fun y => y == c)
  | [], _, hs => by
    exact absurd (List.sublist_nil.mp hs) (by simp)
  | e :: t, hl, hs => by
    have hat : e ∉ t := (List.nodup_cons.mp hl).1
    have hnt : t.Nodup := (List.nodup_cons.mp hl).2
    cases hs with
    | cons _ hs2 =>
      have hamem : a ∈ t := hs2.subset (by simp)
      have hcmem : c ∈ t := hs2.subset (by simp)
      have hea : (e == a) = false :=
        beq_eq_false_iff_ne.mpr fun he => hat (he ▸ hamem)
      have hec : (e == c) = false :=
        beq_eq_false_iff_ne.mpr fun he => hat (he ▸ hcmem)
      have := pair_sublist_findIdx_lt hnt hs2
      simp only [List.findIdx_cons, hea, hec, cond_false]
      omega
    | cons₂ _ hs2 =>
      have hcmem : c ∈ t := hs2.subset (by simp)
      have hac : (a == c) = false :=
        beq_eq_false_iff_ne.mpr fun he => hat (he ▸ hcmem)
      simp only [List.findIdx_cons, beq_self_eq_true, cond_true, hac, cond_false]
      omega

/-- A pair of positions `i < j` of a list yields the two-element sublist of
their values. -/
theorem pair_sublist_of_getElem {l : List DieResult} {i j : Nat}
    (hij : i < j) (hj : j < l.length) :
    List.Sublist [l.get ⟨i, by omega⟩, l.get ⟨j, hj⟩] l := by
  have hi : i < l.length := by omega
  have hdrop : l.drop i = l.get ⟨i, hi⟩ :: l.drop (i + 1) := by
    rw [List.drop_eq_getElem_cons hi]
    rfl
  have hmem : l.get ⟨j, hj⟩ ∈ l.drop (i + 1) := by
    have hlt : j - i - 1 < (l.drop (i + 1)).length := by
      rw [List.length_drop]
      omega
    have h5 : (l.drop (i + 1)).get ⟨j - i - 1, hlt⟩ = l.get ⟨j, hj⟩ := by
      simp only [List.get_eq_getElem, List.getElem_drop]
      congr 1
      omega
    rw [← h5]
    exact List.get_mem _ _ _
  have h1 : List.Sublist [l.get ⟨i, hi⟩, l.get ⟨j, hj⟩]
      (l.get ⟨i, hi⟩ :: l.drop (i + 1)) :=
    List.Sublist.cons₂ _ (List.singleton_sublist.mpr hmem)
  have h2 : List.Sublist (l.get ⟨i, hi⟩ :: l.drop (i + 1)) l := by
    rw [← hdrop]
    exact List.drop_sublist i l
  exact h1.trans h2

theorem getD_eq_get {l : List DieResult} {i : Nat} (hi : i < l.length) :
    l.getD i defaultDie = l.get ⟨i, hi⟩ := by
  rw [List.getD_eq_getElem?_getD, List.getElem?_eq_getElem hi]
  rfl

theorem descSort_trans : ∀ a b c : DieResult,
    decide (magnitude b ≤ magnitude a) = true →
    decide (magnitude c ≤ magnitude b) = true →
    decide (magnitude c ≤ magnitude a) = true := by
  intro a b c h1 h2
  simp only [decide_eq_true_eq] at h1 h2 ⊢
  omega

theorem descSort_total : ∀ a b : DieResult,
    (decide (magnitude b ≤ magnitude a) || decide (magnitude a ≤ magnitude b)) = true := by
  intro a b
  simp only [Bool.or_eq_true, decide_eq_true_eq]
  omega

/-- Over dice with distinct die numbers, `findIndex` with the source's
matching predicate finds exactly the die itself: the predicate agrees with
plain equality on every member of the sorted list. -/
theorem findIdx_keepMatches_eq {dice : List DieResult}
    (hd : dice.Pairwise fun a b => a.die ≠ b.die) {x : DieResult} (hx : x ∈ dice) :
    (dice.mergeSort fun a b => decide (magnitude b ≤ magnitude a)).findIdx (keepMatches x)
      = (dice.mergeSort fun a b => decide (magnitude b ≤ magnitude a)).findIdx
          (fun y => y == x) := by
  refine findIdx_congr ?_
  intro y hy
  have hymem : y ∈ dice := List.mem_mergeSort.mp hy
  by_cases hyx : y = x
  · subst hyx
    rw [keepMatches_self, beq_self_eq_true]
  · have h1 : keepMatches x y = false := by
      cases hkm : keepMatches x y
      · rfl
      · exact absurd (eq_of_keepMatches hd hx hymem hkm) hyx
    rw [h1, beq_eq_false_iff_ne.mpr hyx]

/-- Positional form of `keepHighestDice`: the die at position `i` keeps its
fields and has `kept` set iff its first occurrence in the
magnitude-descending stable sort is below `count`. -/
theorem keepHighestDice_getD (dice : List DieResult) (n : Nat) {i : Nat}
    (hi : i < dice.length) :
    (keepHighestDice dice n).getD i defaultDie
      = { dice.get ⟨i, hi⟩ with kept := decide (((dice.mergeSort fun a b => decide (magnitude b ≤ magnitude a)).findIdx (keepMatches (dice.get ⟨i, hi⟩))) < n) } := by
  have hlen : i < (keepHighestDice dice n).length := by
    rw [keepHighestDice_length]
    exact hi
  rw [getD_eq_get hlen]
  simp only [keepHighestDice, List.get_eq_getElem, List.getElem_map]

/-- The kept-count part of C6: exactly `min n m` positions of the sorted
list are below `n`, and the `findIndex` lookup hits each die's own sorted
position once. -/
theorem keepHighestDice_count (dice : List DieResult) (n : Nat)
    (hd : dice.Pairwise fun a b => a.die ≠ b.die) (hn : n ≤ dice.length) :
    ((keepHighestDice dice n).filter fun d => d.kept).length = n := by
  have hnodup : dice.Nodup := hd.imp fun hab he => hab (congrArg DieResult.die he)
  have hperm : List.Perm (dice.mergeSort fun a b => decide (magnitude b ≤ magnitude a))
      dice := List.mergeSort_perm dice _
  have hsortednd : (dice.mergeSort fun a b => decide (magnitude b ≤ magnitude a)).Nodup :=
    hperm.nodup_iff.mpr hnodup
  have h1 : ((keepHighestDice dice n).filter fun d => d.kept).length
      = (keepHighestDice dice n).countP (fun d => d.kept) :=
    (List.countP_eq_length_filter _ _).symm
  rw [h1]
  simp only [keepHighestDice]
  rw [List.countP_map]
  have h2 : dice.countP ((fun d : DieResult => d.kept) ∘ fun die =>
      { die with kept := decide (((dice.mergeSort fun a b => decide (magnitude b ≤ magnitude a)).findIdx (keepMatches die)) < n) })
      = dice.countP (fun x => decide
        (((dice.mergeSort fun a b => decide (magnitude b ≤ magnitude a)).findIdx
          (fun y => y == x)) < n)) := by
    refine List.countP_congr ?_
    intro x hx
    simp only [Function.comp]
    rw [findIdx_keepMatches_eq hd hx]
  rw [h2]
  rw [hperm.symm.countP_eq]
  rw [countP_findIdx_lt _ n hsortednd]
  rw [hperm.length_eq]
  omega

/-- The magnitude-ordering part of C6: a kept die never has smaller
magnitude than a dropped die. -/
theorem keepHighestDice_mag (dice : List DieResult) (n : Nat)
    (hd : dice.Pairwise fun a b => a.die ≠ b.die) :
    ∀ d1 ∈ keepHighestDice dice n, ∀ d2 ∈ keepHighestDice dice n,
      d1.kept = true → d2.kept = false → magnitude d2 ≤ magnitude d1 := by
  intro d1 h1 d2 h2 hk1 hk2
  simp only [keepHighestDice, List.mem_map] at h1 h2
  obtain ⟨x1, hx1, rfl⟩ := h1
  obtain ⟨x2, hx2, rfl⟩ := h2
  have hlt1 : (dice.mergeSort fun a b => decide (magnitude b ≤ magnitude a)).findIdx
      (fun y => y == x1) < n := by
    have := of_decide_eq_true hk1
    rwa [findIdx_keepMatches_eq hd hx1] at this
  have hge2 : ¬ ((dice.mergeSort fun a b => decide (magnitude b ≤ magnitude a)).findIdx
      (fun y => y == x2) < n) := by
    have := of_decide_eq_false hk2
    rwa [findIdx_keepMatches_eq hd hx2] at this
  have hx1s : x1 ∈ dice.mergeSort fun a b => decide (magnitude b ≤ magnitude a) :=
    List.mem_mergeSort.mpr hx1
  have hx2s : x2 ∈ dice.mergeSort fun a b => decide (magnitude b ≤ magnitude a) :=
    List.mem_mergeSort.mpr hx2
  have hsorted := List.sorted_mergeSort descSort_trans descSort_total dice
  have hij : (dice.mergeSort fun a b => decide (magnitude b ≤ magnitude a)).findIdx
      (fun y => y == x1)
      < (dice.mergeSort fun a b => decide (magnitude b ≤ magnitude a)).findIdx
      (fun y => y == x2) := by omega
  have hrel := List.pairwise_iff_get.mp hsorted
    ⟨_, findIdx_beq_lt_length hx1s⟩ ⟨_, findIdx_beq_lt_length hx2s⟩ hij
  rw [getElem_findIdx_beq hx1s, getElem_findIdx_beq hx2s] at hrel
  exact of_decide_eq_true hrel

/-- The tie-break part of C6: when two dice tie in magnitude, keeping the
later-positioned one forces the earlier one to be kept as well (stability
of the sort). -/
theorem keepHighestDice_tie (dice : List DieResult) (n : Nat)
    (hd : dice.Pairwise fun a b => a.die ≠ b.die) :
    ∀ i j : Nat, i < j → ∀ hj : j < dice.length,
      magnitude (dice.getD i defaultDie) = magnitude (dice.getD j defaultDie) →
      ((keepHighestDice dice n).getD j defaultDie).kept = true →
      ((keepHighestDice dice n).getD i defaultDie).kept = true := by
  intro i j hij hj hmag hkeptj
  have hi : i < dice.length := by omega
  have hnodup : dice.Nodup := hd.imp fun hab he => hab (congrArg DieResult.die he)
  have hperm : List.Perm (dice.mergeSort fun a b => decide (magnitude b ≤ magnitude a))
      dice := List.mergeSort_perm dice _
  have hsortednd : (dice.mergeSort fun a b => decide (magnitude b ≤ magnitude a)).Nodup :=
    hperm.nodup_iff.mpr hnodup
  rw [getD_eq_get hi, getD_eq_get hj] at hmag
  rw [keepHighestDice_getD dice n hj] at hkeptj
  rw [keepHighestDice_getD dice n hi]
  have hxi : dice.get ⟨i, hi⟩ ∈ dice := List.get_mem _ _ _
  have hxj : dice.get ⟨j, hj⟩ ∈ dice := List.get_mem _ _ _
  have hkj : (dice.mergeSort fun a b => decide (magnitude b ≤ magnitude a)).findIdx
      (fun y => y == dice.get ⟨j, hj⟩) < n := by
    have := of_decide_eq_true hkeptj
    rwa [findIdx_keepMatches_eq hd hxj] at this
  have hsub : List.Sublist [dice.get ⟨i, hi⟩, dice.get ⟨j, hj⟩] dice :=
    pair_sublist_of_getElem hij hj
  have hab : decide (magnitude (dice.get ⟨j, hj⟩) ≤ magnitude (dice.get ⟨i, hi⟩))
      = true := by
    rw [hmag]
    simp
  have hsubs : List.Sublist [dice.get ⟨i, hi⟩, dice.get ⟨j, hj⟩]
      (dice.mergeSort fun a b => decide (magnitude b ≤ magnitude a)) :=
    List.pair_sublist_mergeSort descSort_trans descSort_total hab hsub
  have hlt := pair_sublist_findIdx_lt hsortednd hsubs
  rw [findIdx_keepMatches_eq hd hxi]
  simp only [decide_eq_true_eq]
  omega

/-- C6: on a collection of dice with pairwise-distinct die numbers (as the
roll pipeline always produces) and n ≤ m, `keepHighestDice n` yields
exactly n dice with kept = true; every kept die's magnitude (maximum of its
rollHistory) is at least every dropped die's magnitude; and ties break by
original position ascending — whenever two dice tie in magnitude and the
later-positioned one is kept, so is the earlier-positioned one. -/
theorem keepHighestDice_spec (dice : List DieResult) (n : Nat)
    (hd : dice.Pairwise fun a b => a.die ≠ b.die) (hn : n ≤ dice.length) :
    ((keepHighestDice dice n).filter fun d => d.kept).length = n ∧
    (∀ d1 ∈ keepHighestDice dice n, ∀ d2 ∈ keepHighestDice dice n,
      d1.kept = true → d2.kept = false → magnitude d2 ≤ magnitude d1) ∧
    (∀ i j : Nat, i < j → ∀ hj : j < dice.length,
      magnitude (dice.getD i defaultDie) = magnitude (dice.getD j defaultDie) →
      ((keepHighestDice dice n).getD j defaultDie).kept = true →
      ((keepHighestDice dice n).getD i defaultDie).kept = true) :=
  ⟨keepHighestDice_count dice n hd hn, keepHighestDice_mag dice n hd,
    keepHighestDice_tie dice n hd⟩

/-- Witness for C6: three dice with magnitudes 4, 4, 2 (a tie between the
first two) and n = 2. -/
theorem keepHighestDice_spec_witness :
    keepWitnessDice.Pairwise (fun a b => a.die ≠ b.die) ∧
    2 ≤ keepWitnessDice.length ∧
    (((keepHighestDice keepWitnessDice 2).filter fun d => d.kept).length = 2 ∧
      (∀ d1 ∈ keepHighestDice keepWitnessDice 2,
        ∀ d2 ∈ keepHighestDice keepWitnessDice 2,
        d1.kept = true → d2.kept = false → magnitude d2 ≤ magnitude d1) ∧
      (∀ i j : Nat, i < j → ∀ hj : j < keepWitnessDice.length,
        magnitude (keepWitnessDice.getD i defaultDie)
          = magnitude (keepWitnessDice.getD j defaultDie) →
        ((keepHighestDice keepWitnessDice 2).getD j defaultDie).kept = true →
        ((keepHighestDice keepWitnessDice 2).getD i defaultDie).kept = true)) :=
  ⟨by decide, by decide,
    keepHighestDice_spec keepWitnessDice 2 (by decide) (by decide)⟩

end DiceRoller
